import Mathlib

/-!
Shallow embedding of the DialogSafe profanity-censoring pipeline
(`src/domain.py`, `src/profanity_detector.py`, `src/audio_tools.py`,
`src/transcriber.py`, `src/video_tools.py`,
`src/transcription_backends/local_whisper.py`) together with proofs about
the embedded definitions.

Python floats are modelled as `ℚ`, Python ints as `ℤ`/`ℕ`, Python strings as
`String`.  Fallible code is modelled with `Except`/`Option`.  Regular
expressions are modelled character-by-character (ASCII word characters,
matching the inputs this repository processes).
-/

namespace DialogSafe

/-- Character model of Python's regex class `\w` (ASCII fragment): letters,
digits and underscore. -/
def isWordChar (c : Char) : Bool :=
  c.isAlphanum || c == '_'

/-- Apostrophe character (codepoint 39), kept by `_token_normalize`. -/
def aposChar : Char :=
  Char.ofNat 39

/-- Character-wise model of Python `str.lower()` (ASCII fragment). -/
def strLower (s : String) : String :=
  String.mk (s.data.map Char.toLower)

/-- Model of Python `str.strip()`: drop leading and trailing whitespace. -/
def strTrim (s : String) : String :=
  String.mk
    (((s.data.dropWhile Char.isWhitespace).reverse.dropWhile
        Char.isWhitespace).reverse)

/- ----------------------------------------------------------------
   Domain model (src/domain.py)
   ---------------------------------------------------------------- -/

/-- Embedding of `domain.TranscriptWord`: single word with timing and
confidence.  The Python field `end` is spelled `end_`. -/
structure TranscriptWord where
  word : String
  start : ℚ
  end_ : ℚ
  confidence : ℚ
deriving Repr, DecidableEq

/-- Embedding of `domain.TranscriptSegment`. -/
structure TranscriptSegment where
  id : ℕ
  start : ℚ
  end_ : ℚ
  text : String
  words : List TranscriptWord
  avg_confidence : ℚ
  chunk_index : ℕ
deriving Repr, DecidableEq

/-- Embedding of `domain.TranscriptionResult` (the debug-only
`raw_responses` payload is not modelled). -/
structure TranscriptionResult where
  segments : List TranscriptSegment
  language : String
deriving Repr, DecidableEq

/-- Embedding of `domain.ProfanityTerm`: canonical lowercase text. -/
structure ProfanityTerm where
  text : String
deriving Repr, DecidableEq

/-- Embedding of `domain.ProfanityHit`. -/
structure ProfanityHit where
  word : String
  start : ℚ
  end_ : ℚ
  confidence : ℚ
  context : String
  segment_id : ℕ
  chunk_index : ℕ
deriving Repr, DecidableEq

/-- Embedding of `domain.ProfanitySpan`. -/
structure ProfanitySpan where
  start : ℚ
  end_ : ℚ
  hits : List ProfanityHit
  max_confidence : ℚ
deriving Repr, DecidableEq

/-- Fields of `config.AppConfig` consumed by the embedded functions. -/
structure AppConfig where
  mode : String := "mute"
  min_confidence : ℚ := 0.6
  max_gap_combine_ms : ℤ := 500
  audio_language : String := "en"
  whisper_backend : String := "local_whisper"
  whisper_model : String := "base"
deriving Repr, DecidableEq

/- ----------------------------------------------------------------
   Profanity detection (src/profanity_detector.py)
   ---------------------------------------------------------------- -/

/-- Embedding of `_token_normalize`: lowercase the word and delete every
character that is neither a `\w` character nor an apostrophe
(`re.sub(r"[^\w']+", "", word.lower())`). -/
def tokenNormalize (word : String) : String :=
  String.mk ((strLower word).data.filter fun c => isWordChar c || c == aposChar)

/-- Does the character list `t` occur verbatim at the head of `s`? -/
def charsAtHead : List Char → List Char → Bool
  | [], _ => true
  | _ :: _, [] => false
  | c :: cs, d :: ds => c == d && charsAtHead cs ds

/-- Is position `i` of `s` (0 ≤ i ≤ length) occupied by a `\w` character?
Out-of-range positions count as non-word, as in Python's `\b` semantics. -/
def wordishAt (s : List Char) (i : ℕ) : Bool :=
  match s.get? i with
  | some c => isWordChar c
  | none => false

/-- Python `\b` at position `i` of `s`: the word-ness of the characters on
the two sides of the position differs (positions before the start and past
the end are non-word). -/
def boundaryAt (s : List Char) (i : ℕ) : Bool :=
  (if i = 0 then false else wordishAt s (i - 1)) != wordishAt s i

/-- Does the pattern `\b t \b` (with `t` a literal) match `s` at `i`? -/
def boundaryMatchAt (t s : List Char) (i : ℕ) : Bool :=
  charsAtHead t (s.drop i) && boundaryAt s i && boundaryAt s (i + t.length)

/-- Fuelled scan behind `findBoundaryMatches`: collect the start positions
of the leftmost non-overlapping matches, as `re.finditer` does. -/
def findBoundaryMatchesAux (t s : List Char) : ℕ → ℕ → List ℕ
  | _, 0 => []
  | i, fuel + 1 =>
    if i > s.length then []
    else if boundaryMatchAt t s i then
      i :: findBoundaryMatchesAux t s (i + max 1 t.length) fuel
    else
      findBoundaryMatchesAux t s (i + 1) fuel

/-- Embedding of `term.pattern.finditer(seg_text_lower)` for the compiled
pattern `\b re.escape(term.text) \b`: start positions of the
non-overlapping matches of the literal `t` at word boundaries in `s`. -/
def findBoundaryMatches (t s : String) : List ℕ :=
  findBoundaryMatchesAux t.toList s.toList 0 (s.toList.length + 1)

/-- Word-level candidates of one segment: `(word, normalized-text)` pairs,
dropping words whose normal form is empty (`detect_profanity`, primary
path). -/
def wordCandidates (s : TranscriptSegment) : List (TranscriptWord × String) :=
  s.words.filterMap fun w =>
    let n := tokenNormalize w.word
    if n = "" then none else some (w, n)

/-- Primary (word-timed) detection path of `detect_profanity` for one
segment: a candidate whose normal form is a term is emitted unless its
confidence is below `min_confidence` while the mode is not `"mute"`. -/
def segmentWordHits (terms : List ProfanityTerm) (config : AppConfig)
    (s : TranscriptSegment) : List ProfanityHit :=
  (wordCandidates s).filterMap fun p =>
    if p.2 ∈ terms.map ProfanityTerm.text then
      if p.1.confidence < config.min_confidence ∧ config.mode ≠ "mute" then
        none
      else
        some
          { word := p.2
            start := p.1.start
            end_ := p.1.end_
            confidence := p.1.confidence
            context := strTrim s.text
            segment_id := s.id
            chunk_index := s.chunk_index }
    else none

/-- Fallback (segment-level regex) path of `detect_profanity` for one
segment without word timings: each word-boundary match of a term in the
lowercased segment text yields a whole-segment hit, dropped whenever the
segment's average confidence is below `min_confidence` (no mute-mode
exemption on this path). -/
def segmentFallbackHits (terms : List ProfanityTerm) (config : AppConfig)
    (s : TranscriptSegment) : List ProfanityHit :=
  if s.words = [] then
    terms.flatMap fun t =>
      (findBoundaryMatches t.text (strLower s.text)).filterMap fun _ =>
        if s.avg_confidence < config.min_confidence then none
        else
          some
            { word := t.text
              start := s.start
              end_ := s.end_
              confidence := s.avg_confidence
              context := strTrim s.text
              segment_id := s.id
              chunk_index := s.chunk_index }
  else []

/-- Sort order of the final `hits.sort(key=lambda h: (h.start, h.end))`. -/
def hitLe (a b : ProfanityHit) : Prop :=
  a.start < b.start ∨ (a.start = b.start ∧ a.end_ ≤ b.end_)

instance : DecidableRel hitLe := fun a b => by
  unfold hitLe; infer_instance

/-- Embedding of `detect_profanity`: scan every segment (word-timed path
plus fallback path) and sort the hits by `(start, end)`.  An empty term
list yields an empty hit list (the code logs a warning and returns).
Python's `list.sort` is stable, and the stable sort by a total preorder is
unique, so it is modelled by insertion sort. -/
def detect_profanity (transcription : TranscriptionResult)
    (profanity_terms : List ProfanityTerm) (config : AppConfig) :
    List ProfanityHit :=
  if profanity_terms = [] then []
  else
    List.insertionSort hitLe
      (transcription.segments.flatMap fun s =>
        segmentWordHits profanity_terms config s ++
          segmentFallbackHits profanity_terms config s)

/- ----------------------------------------------------------------
   Span merging (src/profanity_detector.py, merge_profanity_spans)
   ---------------------------------------------------------------- -/

/-- Embedding of the `flush()` closure of `merge_profanity_spans`: emit the
open span unless it has no member hits; its `max_confidence` is the maximum
confidence over the member hits. -/
def flushSpan (curStart curEnd : ℚ) (curHits : List ProfanityHit) :
    List ProfanitySpan :=
  match curHits with
  | [] => []
  | h :: t =>
    [{ start := curStart
       end_ := curEnd
       hits := h :: t
       max_confidence := t.foldl (fun a x => max a x.confidence) h.confidence }]

/-- Sweep loop of `merge_profanity_spans`: extend the open span when the
gap `h.start - curEnd` is at most `maxGapSec`, otherwise flush it and open
a new span at `h`. -/
def mergeAux (maxGapSec : ℚ) :
    ℚ → ℚ → List ProfanityHit → List ProfanityHit → List ProfanitySpan
  | curStart, curEnd, curHits, [] => flushSpan curStart curEnd curHits
  | curStart, curEnd, curHits, h :: rest =>
    if h.start - curEnd ≤ maxGapSec then
      mergeAux maxGapSec curStart (max curEnd h.end_) (curHits ++ [h]) rest
    else
      flushSpan curStart curEnd curHits ++
        mergeAux maxGapSec h.start h.end_ [h] rest

/-- Embedding of `merge_profanity_spans`: merge overlapping or
near-adjacent hits into spans, where `max_gap_ms / 1000.0` seconds is the
largest mergeable gap. -/
def merge_profanity_spans (hits : List ProfanityHit) (max_gap_ms : ℤ) :
    List ProfanitySpan :=
  match hits with
  | [] => []
  | h :: rest => mergeAux ((max_gap_ms : ℚ) / 1000) h.start h.end_ [h] rest

/- ----------------------------------------------------------------
   Audio segmentation (src/audio_tools.py, chunk_audio)
   ---------------------------------------------------------------- -/

/-- Embedding of `audio_tools.AudioChunk` (the on-disk `path` is not
modelled). -/
structure AudioChunk where
  index : ℕ
  start_time : ℚ
  duration : ℚ
deriving Repr, DecidableEq

/-- Loop body of `chunk_audio`, recursing over the remaining window count
while tracking the window index.  A window with no frames left stops the
loop (`break`); a window shorter than 0.11 s is skipped (its frames are
read and discarded); any other window is emitted. -/
def chunkLoop (frames_per_chunk framerate n_frames : ℕ) :
    ℕ → ℕ → List AudioChunk
  | 0, _ => []
  | remaining + 1, index =>
    let start_frame := index * frames_per_chunk
    let frames_to_read := min frames_per_chunk (n_frames - start_frame)
    if frames_to_read = 0 then []
    else
      let duration : ℚ := (frames_to_read : ℚ) / (framerate : ℚ)
      if duration < 0.11 then
        chunkLoop frames_per_chunk framerate n_frames remaining (index + 1)
      else
        { index := index
          start_time := (start_frame : ℚ) / (framerate : ℚ)
          duration := duration } ::
          chunkLoop frames_per_chunk framerate n_frames remaining (index + 1)

/-- Embedding of `chunk_audio` on the parameters read from the WAV header:
channel count, frame rate, total frames, and the requested chunk length in
seconds.  Wrong channel count and non-positive chunk length fail. -/
def chunk_audio (n_channels framerate n_frames chunk_length_seconds : ℕ) :
    Except String (List AudioChunk) :=
  if n_channels ≠ 1 then
    .error "Expected mono audio (1 channel)."
  else
    let frames_per_chunk := chunk_length_seconds * framerate
    if frames_per_chunk = 0 then
      .error "chunk_length_seconds must be positive."
    else
      let total_chunks := (n_frames + frames_per_chunk - 1) / frames_per_chunk
      .ok (chunkLoop frames_per_chunk framerate n_frames total_chunks 0)

/- ----------------------------------------------------------------
   Censorship compiler (src/video_tools.py)
   ---------------------------------------------------------------- -/

/-- Mute-mode trailing pad, `MUTE_END_PADDING_SEC = 0.150`. -/
def MUTE_END_PADDING_SEC : ℚ := 0.150

/-- Single-quote character, used inside generated ffmpeg filter strings. -/
def squote : String :=
  String.mk [aposChar]

/-- Left-pad a fractional part to three digits. -/
def pad3 (n : ℕ) : String :=
  if n < 10 then "00" ++ toString n
  else if n < 100 then "0" ++ toString n
  else toString n

/-- Python `f"{x:.3f}"` on the rationals produced here: round to the
nearest thousandth (the concrete values in this development are exact
multiples of 1/1000, so no tie-breaking is exercised) and print with three
decimals. -/
def fmt3 (q : ℚ) : String :=
  let ms : ℤ := ⌊q * 1000 + 1 / 2⌋
  let sign := if ms < 0 then "-" else ""
  let a := ms.natAbs
  sign ++ toString (a / 1000) ++ "." ++ pad3 (a % 1000)

/-- Python `int(round(x))` on the nonnegative rationals produced here. -/
def roundToInt (q : ℚ) : ℤ :=
  ⌊q + 1 / 2⌋

/-- Embedding of `build_mute_filter`: one `volume=enable='between(...)'`
gate per span, end-padded by 150 ms, joined with commas. -/
def build_mute_filter (spans : List ProfanitySpan) : Option String :=
  match spans with
  | [] => none
  | _ =>
    some <| String.intercalate "," <| spans.map fun span =>
      let start := max 0 span.start
      let e := max start span.end_ + MUTE_END_PADDING_SEC
      "volume=enable=" ++ squote ++ "between(t," ++ fmt3 start ++ "," ++
        fmt3 e ++ ")" ++ squote ++ ":volume=0"

/-- Embedding of `build_bleep_filter`: a 1 kHz tone per span, delayed to
the span start and mixed with the base audio. -/
def build_bleep_filter (spans : List ProfanitySpan)
    (sample_rate : ℕ := 16000) : Option String :=
  match spans with
  | [] => none
  | _ =>
    let chains :=
      ["[0:a:0]anull[a0]"] ++
        (spans.enum.flatMap fun p =>
          let idx := p.1
          let span := p.2
          let start := max 0 span.start
          let e := max start span.end_
          let duration := max 0.1 (e - start)
          let delay_ms := roundToInt (start * 1000)
          ["aevalsrc=0.5*sin(2*PI*1000*t):s=" ++ toString sample_rate ++
              ":d=" ++ fmt3 duration ++ "[tone" ++ toString idx ++ "]",
            "[tone" ++ toString idx ++ "]adelay=" ++ toString delay_ms ++
              "|" ++ toString delay_ms ++ "[b" ++ toString idx ++ "]"]) ++
        [String.intercalate ""
            ("[a0]" :: spans.enum.map fun p => "[b" ++ toString p.1 ++ "]") ++
          "amix=inputs=" ++ toString (1 + spans.length) ++ ":normalize=0[aout]"]
    some (String.intercalate ";" chains)

/-- Embedding of `_encoder_for_codec_name`: map the probed codec to an
ffmpeg encoder, defaulting to `aac`. -/
def encoder_for_codec_name (codec_name : Option String) : String :=
  let codec := strLower (strTrim (codec_name.getD ""))
  if codec = "aac" then "aac"
  else if codec = "ac3" then "ac3"
  else if codec = "eac3" then "eac3"
  else "aac"

/-- Embedding of `_build_ffmpeg_censor_and_mux_cmd` (paths are passed as
plain strings).  With no spans a pass-through copy command is produced;
otherwise the filtered audio replaces stream `0:a:0` and the primary
stream is re-encoded with the selected encoder. -/
def build_ffmpeg_censor_and_mux_cmd (input_video output_video : String)
    (spans : List ProfanitySpan) (config : AppConfig)
    (primary_audio_codec : Option String)
    (primary_audio_bit_rate : Option ℤ) : List String :=
  let copyCmd := ["ffmpeg", "-y", "-i", input_video, "-c", "copy", output_video]
  match spans with
  | [] => copyCmd
  | _ =>
    let filter_complex? :=
      if config.mode = "mute" then
        (build_mute_filter spans).map fun af => "[0:a:0]" ++ af ++ "[aout]"
      else
        build_bleep_filter spans
    match filter_complex? with
    | none => copyCmd
    | some filter_complex =>
      let encoder := encoder_for_codec_name primary_audio_codec
      let cmd :=
        ["ffmpeg", "-y", "-i", input_video, "-filter_complex", filter_complex,
          "-map", "0:v:0", "-map", "[aout]", "-map", "0:a", "-map", "-0:a:0",
          "-c:v", "copy", "-c:a", "copy", "-c:a:0", encoder]
      let cmd :=
        match primary_audio_bit_rate with
        | some b => if 0 < b then cmd ++ ["-b:a:0", toString b] else cmd
        | none => cmd
      cmd ++ [output_video]

/- ----------------------------------------------------------------
   Transcription orchestration (src/transcriber.py)
   ---------------------------------------------------------------- -/

/-- Embedding of `_normalize_model_for_backend`. -/
def normalize_model_for_backend (model backend : String) : String :=
  let m := strTrim model
  if m = "" then m
  else if backend = "local_whisper" then
    if m = "whisper-1" then "base" else m
  else if strLower m ∈
      ["tiny", "base", "small", "medium", "large", "large-v1", "large-v2",
        "large-v3"] then
    "whisper-1"
  else m

/-- Backend response at the boundary modelled for `transcribe_chunk`: the
`language` key of the raw payload (possibly absent) and the parsed,
absolute-time segments. -/
structure RawResponse where
  language : Option String
  segments : List TranscriptSegment
deriving Repr, DecidableEq

/-- One external transcription call either raises (`.error message`) or
returns a payload.  The oracle gives the outcome of the n-th call made by
`transcribe_chunk`, in call order. -/
def BackendOracle : Type :=
  ℕ → Except String RawResponse

/-- Language extraction of `_parse_transcript_response`:
`str(raw.get("language") or "unknown")` (absent or empty becomes
`"unknown"`). -/
def parseLanguage (raw : Option String) : String :=
  match raw with
  | none => "unknown"
  | some s => if s = "" then "unknown" else s

/-- Observable control-flow events of `transcribe_chunk`: a backend call
for a model at a 1-based attempt number, or a fixed inter-attempt sleep. -/
inductive RetryEvent where
  | attempt (model : String) (n : ℕ)
  | sleep (d : ℚ)
deriving Repr, DecidableEq

/-- Outcome of the retry loop of `transcribe_chunk` for one model. -/
inductive ModelTry where
  | success (language : String) (segments : List TranscriptSegment)
  | unknownBreak
  | exhausted
deriving Repr, DecidableEq

/-- Python `model != fallback_model`, where `fallback_model` is the raw
(possibly `None`) parameter of `transcribe_chunk`. -/
def modelNeFallback (model : String) (fallback_model : Option String) : Bool :=
  match fallback_model with
  | none => true
  | some f => model != f

/-- Inner `for attempt in range(1, max_retries + 1)` loop of
`transcribe_chunk` for one model.  `attempts` enumerates the remaining
attempt numbers; the counter numbers backend calls for the oracle and
`last_err` carries the most recent exception text.  Returns the events, the
next call counter, the updated `last_err` and the outcome. -/
def runAttempts (oracle : BackendOracle) (model : String)
    (fallback_model : Option String) (max_retries : ℕ) (retry_delay : ℚ) :
    List ℕ → ℕ → Option String →
    List RetryEvent × ℕ × Option String × ModelTry
  | [], ctr, last_err => ([], ctr, last_err, .exhausted)
  | attempt :: restAttempts, ctr, last_err =>
    match oracle ctr with
    | .ok raw =>
      let language := parseLanguage raw.language
      if language = "unknown" ∧ modelNeFallback model fallback_model then
        ([.attempt model attempt], ctr + 1, last_err, .unknownBreak)
      else
        ([.attempt model attempt], ctr + 1, last_err,
          .success language raw.segments)
    | .error exc =>
      let sleeps : List RetryEvent :=
        if attempt < max_retries then [.sleep retry_delay] else []
      let rest :=
        runAttempts oracle model fallback_model max_retries retry_delay
          restAttempts (ctr + 1) (some exc)
      (.attempt model attempt :: sleeps ++ rest.1, rest.2)

/-- Error raised when every retry of every model failed: the embedding of
`RuntimeError(f"Transcription failed for chunk {index} after retries:
{last_err}")`, keeping the chunk index and the last underlying error. -/
structure TranscriptionExhausted where
  chunk_index : ℕ
  last_err : Option String
deriving Repr, DecidableEq

/-- Successful result dict of `transcribe_chunk` (the raw payload is
dropped). -/
structure ChunkTranscription where
  chunk_index : ℕ
  language : String
  segments : List TranscriptSegment
deriving Repr, DecidableEq

/-- Outer `for model in models_to_try` loop of `transcribe_chunk`. -/
def runModels (oracle : BackendOracle) (chunk_index : ℕ)
    (fallback_model : Option String) (max_retries : ℕ) (retry_delay : ℚ) :
    List String → ℕ → Option String →
    List RetryEvent × Except TranscriptionExhausted ChunkTranscription
  | [], _, last_err => ([], .error ⟨chunk_index, last_err⟩)
  | model :: restModels, ctr, last_err =>
    let r :=
      runAttempts oracle model fallback_model max_retries retry_delay
        (List.range' 1 max_retries) ctr last_err
    match r.2.2.2 with
    | .success language segments =>
      (r.1, .ok ⟨chunk_index, language, segments⟩)
    | _ =>
      let rest :=
        runModels oracle chunk_index fallback_model max_retries retry_delay
          restModels r.2.1 r.2.2.1
      (r.1 ++ rest.1, rest.2)

/-- Embedding of `transcribe_chunk`: resolve the effective primary and
fallback models (configured model when not overridden, fallback defaulting
to the primary), normalize them for the backend, then run the retry loop
over the two models.  Returns the event trace alongside the result. -/
def transcribe_chunk (oracle : BackendOracle) (chunk_index : ℕ)
    (config : AppConfig) (primary_model : Option String := none)
    (fallback_model : Option String := none) (max_retries : ℕ := 3)
    (retry_delay : ℚ := 2) :
    List RetryEvent × Except TranscriptionExhausted ChunkTranscription :=
  let backend := config.whisper_backend
  let configured_model :=
    if config.whisper_model = "" then "base" else config.whisper_model
  let effective_primary := primary_model.getD configured_model
  let effective_fallback := fallback_model.getD effective_primary
  let ep := normalize_model_for_backend effective_primary backend
  let ef := normalize_model_for_backend effective_fallback backend
  runModels oracle chunk_index fallback_model max_retries retry_delay
    [ep, ef] 0 none

/-- Sort order of the aggregation `all_segments.sort(key=lambda s:
(s.start, s.chunk_index, s.id))`. -/
def segLe (a b : TranscriptSegment) : Prop :=
  a.start < b.start ∨
    (a.start = b.start ∧
      (a.chunk_index < b.chunk_index ∨
        (a.chunk_index = b.chunk_index ∧ a.id ≤ b.id)))

instance : DecidableRel segLe := fun a b => by
  unfold segLe; infer_instance

/-- First non-empty, non-`"unknown"` language of the completed chunks, as
in `transcribe_audio_chunks`. -/
def dominantLanguage (languages : List String) : String :=
  match languages.filter (fun l => l ≠ "" ∧ l ≠ "unknown") with
  | [] => "unknown"
  | l :: _ => l

/-- Embedding of `transcribe_audio_chunks`: run `transcribe_chunk` for
every chunk index (each chunk's backend calls given by its own oracle),
drop the failed chunks (the code logs and continues), gather the remaining
segments sorted by `(start, chunk_index, id)` and the dominant language.
The worker pool's completion order only permutes the pre-sort lists, so
the sequential model fixes one admissible order. -/
def transcribe_audio_chunks (chunkIdxs : List ℕ)
    (oracleOf : ℕ → BackendOracle) (config : AppConfig) :
    TranscriptionResult :=
  let results :=
    chunkIdxs.map fun i => (transcribe_chunk (oracleOf i) i config).2
  let completed := results.filterMap fun r =>
    match r with
    | .ok res => some res
    | .error _ => none
  let all_segments := List.insertionSort segLe (completed.flatMap (·.segments))
  { segments := all_segments
    language := dominantLanguage (completed.map (·.language)) }

/- ----------------------------------------------------------------
   Local Whisper backend concurrency
   (src/transcription_backends/local_whisper.py)
   ---------------------------------------------------------------- -/

/-- Model-name normalization `(model_name or "base").strip()` shared by
`_get_transcribe_lock` and `_get_local_whisper_model`: an empty name
becomes `"base"`, then surrounding whitespace is stripped. -/
def normModelName (model_name : String) : String :=
  strTrim (if model_name = "" then "base" else model_name)

/-- Program counter of one worker thread running
`local_whisper.transcribe_audio`, at the granularity of the module's two
locks: the global `_local_whisper_models_lock` (held while loading or while
fetching the per-model lock) and the per-model transcribe lock (held around
`mdl.transcribe`). -/
inductive ThreadPC where
  | idle
  | loading (model : String)
  | fetchLock (model : String)
  | gettingLock (model : String)
  | ready (model : String)
  | inference (model : String)
  | done
deriving Repr, DecidableEq

/-- Process-wide shared state of the backend: the owner of the global
cache lock, the owner (if any) of each per-model transcribe lock (keyed by
normalized model name), the set of loaded model names, and every thread's
program counter. -/
structure LWState where
  cacheLockOwner : Option ℕ
  transLockOwner : String → Option ℕ
  cache : String → Bool
  threads : ℕ → ThreadPC

/-- Initial state: no lock held, no model loaded, all threads idle. -/
def LWInit : LWState :=
  { cacheLockOwner := none
    transLockOwner := fun _ => none
    cache := fun _ => false
    threads := fun _ => .idle }

/-- Replace thread `t`'s program counter. -/
def setThread (s : LWState) (t : ℕ) (pc : ThreadPC) : ℕ → ThreadPC :=
  fun u => if u = t then pc else s.threads u

/-- Interleaving semantics of `transcribe_audio`: each constructor is one
atomic transition of one thread `t` transcribing with raw model name `m`.
Loading the model (`_get_local_whisper_model`) and initializing the
per-model lock entry (`_get_transcribe_lock`) each happen with the global
`_local_whisper_models_lock` held; the `mdl.transcribe` call happens with
the per-model lock held. -/
inductive LWStep : LWState → LWState → Prop where
  | acquireCacheForLoad (s : LWState) (t : ℕ) (m : String) :
      s.threads t = .idle →
      s.cacheLockOwner = none →
      LWStep s
        { s with
          cacheLockOwner := some t
          threads := setThread s t (.loading m) }
  | finishLoad (s : LWState) (t : ℕ) (m : String) :
      s.threads t = .loading m →
      LWStep s
        { s with
          cacheLockOwner := none
          cache := fun n => if n = normModelName m then true else s.cache n
          threads := setThread s t (.fetchLock m) }
  | acquireCacheForLockDict (s : LWState) (t : ℕ) (m : String) :
      s.threads t = .fetchLock m →
      s.cacheLockOwner = none →
      LWStep s
        { s with
          cacheLockOwner := some t
          threads := setThread s t (.gettingLock m) }
  | finishGetLock (s : LWState) (t : ℕ) (m : String) :
      s.threads t = .gettingLock m →
      LWStep s
        { s with
          cacheLockOwner := none
          threads := setThread s t (.ready m) }
  | acquireTranscribeLock (s : LWState) (t : ℕ) (m : String) :
      s.threads t = .ready m →
      s.transLockOwner (normModelName m) = none →
      LWStep s
        { s with
          transLockOwner := fun n =>
            if n = normModelName m then some t else s.transLockOwner n
          threads := setThread s t (.inference m) }
  | releaseTranscribeLock (s : LWState) (t : ℕ) (m : String) :
      s.threads t = .inference m →
      LWStep s
        { s with
          transLockOwner := fun n =>
            if n = normModelName m then none else s.transLockOwner n
          threads := setThread s t .done }

/-- States reachable from the initial state under the interleaving
semantics. -/
inductive LWReachable : LWState → Prop where
  | init : LWReachable LWInit
  | step {s s' : LWState} : LWReachable s → LWStep s s' → LWReachable s'

/- ----------------------------------------------------------------
   Helper lemmas about the span merger
   ---------------------------------------------------------------- -/

theorem flushSpan_flatMap_hits (cs ce : ℚ) (hs : List ProfanityHit) :
    (flushSpan cs ce hs).flatMap ProfanitySpan.hits = hs := by
  cases hs <;> simp [flushSpan]

theorem flushSpan_length_of_ne_nil {cs ce : ℚ} {hs : List ProfanityHit}
    (h : hs ≠ []) : (flushSpan cs ce hs).length = 1 := by
  cases hs with
  | nil => exact absurd rfl h
  | cons a t => simp [flushSpan]

theorem mergeAux_flatMap_hits (g : ℚ) (rest : List ProfanityHit) :
    ∀ (cs ce : ℚ) (hs : List ProfanityHit),
      (mergeAux g cs ce hs rest).flatMap ProfanitySpan.hits = hs ++ rest := by
  induction rest with
  | nil => intro cs ce hs; simp [mergeAux, flushSpan_flatMap_hits]
  | cons h rest ih =>
    intro cs ce hs
    by_cases hgap : h.start - ce ≤ g
    · rw [mergeAux, if_pos hgap, ih]
      simp
    · rw [mergeAux, if_neg hgap, List.flatMap_append, flushSpan_flatMap_hits,
        ih]
      simp

theorem le_foldl_maxConf (t : List ProfanityHit) :
    ∀ c : ℚ, c ≤ t.foldl (fun a x => max a x.confidence) c := by
  induction t with
  | nil => intro c; simp
  | cons x t ih =>
    intro c
    calc c ≤ max c x.confidence := le_max_left _ _
    _ ≤ _ := ih _

theorem mem_le_foldl_maxConf (t : List ProfanityHit) :
    ∀ (c : ℚ) (x : ProfanityHit), x ∈ t →
      x.confidence ≤ t.foldl (fun a x => max a x.confidence) c := by
  induction t with
  | nil => intro c x hx; simp at hx
  | cons y t ih =>
    intro c x hx
    rcases List.mem_cons.mp hx with rfl | hx
    · calc x.confidence ≤ max c x.confidence := le_max_right _ _
      _ ≤ _ := le_foldl_maxConf t _
    · exact ih _ x hx

theorem foldl_maxConf_attained (t : List ProfanityHit) :
    ∀ c : ℚ, t.foldl (fun a x => max a x.confidence) c = c ∨
      ∃ x ∈ t, t.foldl (fun a x => max a x.confidence) c = x.confidence := by
  induction t with
  | nil => intro c; left; rfl
  | cons y t ih =>
    intro c
    rcases ih (max c y.confidence) with h | ⟨x, hx, hfx⟩
    · rcases max_choice c y.confidence with hm | hm
      · left; simpa [hm] using h
      · right
        exact ⟨y, List.mem_cons_self _ _, by simpa [hm] using h⟩
    · right
      exact ⟨x, List.mem_cons_of_mem _ hx, hfx⟩

theorem mem_flushSpan {sp : ProfanitySpan} {cs ce : ℚ}
    {hs : List ProfanityHit} (h : sp ∈ flushSpan cs ce hs) :
    ∃ hd tl, sp.hits = hd :: tl ∧ sp.start = cs ∧ sp.end_ = ce ∧
      hs = hd :: tl ∧
      sp.max_confidence =
        tl.foldl (fun a x => max a x.confidence) hd.confidence := by
  cases hs with
  | nil => simp [flushSpan] at h
  | cons a t =>
    simp only [flushSpan, List.mem_singleton] at h
    subst h
    exact ⟨a, t, rfl, rfl, rfl, rfl, rfl⟩

theorem mem_mergeAux_form (g : ℚ) (rest : List ProfanityHit) :
    ∀ (cs ce : ℚ) (hs : List ProfanityHit) (sp : ProfanitySpan),
      sp ∈ mergeAux g cs ce hs rest →
      ∃ hd tl, sp.hits = hd :: tl ∧
        sp.max_confidence =
          tl.foldl (fun a x => max a x.confidence) hd.confidence := by
  induction rest with
  | nil =>
    intro cs ce hs sp hsp
    rw [mergeAux] at hsp
    obtain ⟨hd, tl, h1, _, _, _, h5⟩ := mem_flushSpan hsp
    exact ⟨hd, tl, h1, h5⟩
  | cons h rest ih =>
    intro cs ce hs sp hsp
    rw [mergeAux] at hsp
    by_cases hgap : h.start - ce ≤ g
    · rw [if_pos hgap] at hsp
      exact ih _ _ _ sp hsp
    · rw [if_neg hgap] at hsp
      rcases List.mem_append.mp hsp with hmem | hmem
      · obtain ⟨hd, tl, h1, _, _, _, h5⟩ := mem_flushSpan hmem
        exact ⟨hd, tl, h1, h5⟩
      · exact ih _ _ _ sp hmem

/-- Partition property of the merger: the concatenation of the span hit
lists is the input hit sequence. -/
theorem merge_flatMap_hits (hits : List ProfanityHit) (g : ℤ) :
    (merge_profanity_spans hits g).flatMap ProfanitySpan.hits = hits := by
  cases hits with
  | nil => simp [merge_profanity_spans]
  | cons h rest =>
    rw [merge_profanity_spans, mergeAux_flatMap_hits]
    rfl

theorem mergeAux_length_antitone {g1 g2 : ℚ} (hg : g1 ≤ g2)
    (rest : List ProfanityHit) :
    ∀ (e1 e2 s1 s2 : ℚ) (hs1 hs2 : List ProfanityHit),
      e1 ≤ e2 → hs1 ≠ [] → hs2 ≠ [] →
      (mergeAux g2 s2 e2 hs2 rest).length ≤
        (mergeAux g1 s1 e1 hs1 rest).length := by
  induction rest with
  | nil =>
    intro e1 e2 s1 s2 hs1 hs2 he h1 h2
    simp [mergeAux, flushSpan_length_of_ne_nil h1,
      flushSpan_length_of_ne_nil h2]
  | cons h rest ih =>
    intro e1 e2 s1 s2 hs1 hs2 he h1 h2
    simp only [mergeAux]
    by_cases hsmall : h.start - e1 ≤ g1
    · have hbig : h.start - e2 ≤ g2 := by linarith
      rw [if_pos hsmall, if_pos hbig]
      exact ih (max e1 h.end_) (max e2 h.end_) s1 s2 (hs1 ++ [h])
        (hs2 ++ [h]) (max_le_max he le_rfl) (by simp) (by simp)
    · rw [if_neg hsmall]
      by_cases hbig : h.start - e2 ≤ g2
      · rw [if_pos hbig]
        rw [List.length_append, flushSpan_length_of_ne_nil h1]
        have hih := ih h.end_ (max e2 h.end_) h.start s2 [h] (hs2 ++ [h])
          (le_max_right e2 h.end_) (List.cons_ne_nil h []) (by simp)
        omega
      · rw [if_neg hbig]
        rw [List.length_append, List.length_append,
          flushSpan_length_of_ne_nil h1, flushSpan_length_of_ne_nil h2]
        have hih := ih h.end_ h.end_ h.start h.start [h] [h] (le_refl h.end_)
          (List.cons_ne_nil h []) (List.cons_ne_nil h [])
        omega

/- ----------------------------------------------------------------
   Claims C2 and C10 about the span merger
   ---------------------------------------------------------------- -/

/-- Claim C2, as stated, is false: with hits at times [0,0] and [1,2],
merging with the smaller gap 0 ms yields two spans while merging with the
larger gap 2000 ms yields one, so the smaller gap produces MORE spans. -/
theorem C2_counterexample :
    ¬ ((merge_profanity_spans
          [⟨"a", 0, 0, 1, "", 0, 0⟩, ⟨"b", 1, 2, 1, "", 0, 0⟩] 0).length ≤
        (merge_profanity_spans
          [⟨"a", 0, 0, 1, "", 0, 0⟩, ⟨"b", 1, 2, 1, "", 0, 0⟩] 2000).length) := by
  norm_num [merge_profanity_spans, mergeAux, flushSpan]

/-- Claim C2 (amended): for every hit sequence and non-negative gaps
g1 < g2, merging with the LARGER gap g2 produces no more spans than merging
with g1 (the span count is antitone in the gap). -/
theorem C2_spans_antitone_in_gap (hits : List ProfanityHit) (g1 g2 : ℤ)
    (hg0 : 0 ≤ g1) (hg : g1 < g2) :
    (merge_profanity_spans hits g2).length ≤
      (merge_profanity_spans hits g1).length := by
  cases hits with
  | nil => simp [merge_profanity_spans]
  | cons h rest =>
    have hcast : (g1 : ℚ) ≤ (g2 : ℚ) := by exact_mod_cast hg.le
    have hq : (g1 : ℚ) / 1000 ≤ (g2 : ℚ) / 1000 := by linarith
    exact mergeAux_length_antitone hq rest h.end_ h.end_ h.start h.start
      [h] [h] le_rfl (List.cons_ne_nil h []) (List.cons_ne_nil h [])

/-- Witness for C2: the amended theorem applied at a concrete input. -/
theorem C2_witness :
    (merge_profanity_spans
        [⟨"a", 0, 0, 1, "", 0, 0⟩, ⟨"b", 1, 2, 1, "", 0, 0⟩] 2000).length ≤
      (merge_profanity_spans
        [⟨"a", 0, 0, 1, "", 0, 0⟩, ⟨"b", 1, 2, 1, "", 0, 0⟩] 0).length :=
  C2_spans_antitone_in_gap _ 0 2000 (by norm_num) (by norm_num)

/-- Claim C10: for every hit sequence sorted by (start, end), the merger
partitions the input exactly (concatenating the spans' hit lists in order
returns the input), and each span's `max_confidence` is attained by one of
its hits and bounds them all. -/
theorem C10_merge_partition_and_max_confidence (hits : List ProfanityHit)
    (g : ℤ) (hsorted : hits.Pairwise hitLe) :
    (merge_profanity_spans hits g).flatMap ProfanitySpan.hits = hits ∧
    ∀ sp ∈ merge_profanity_spans hits g,
      (∀ h ∈ sp.hits, h.confidence ≤ sp.max_confidence) ∧
      ∃ h ∈ sp.hits, h.confidence = sp.max_confidence := by
  refine ⟨merge_flatMap_hits hits g, ?_⟩
  intro sp hsp
  cases hits with
  | nil => simp [merge_profanity_spans] at hsp
  | cons h0 rest =>
    rw [merge_profanity_spans] at hsp
    obtain ⟨hd, tl, hhits, hmc⟩ := mem_mergeAux_form _ rest _ _ _ sp hsp
    constructor
    · intro h hh
      rw [hhits] at hh
      rw [hmc]
      rcases List.mem_cons.mp hh with rfl | hh
      · exact le_foldl_maxConf tl h.confidence
      · exact mem_le_foldl_maxConf tl _ h hh
    · rcases foldl_maxConf_attained tl hd.confidence with heq | ⟨x, hx, heq⟩
      · exact ⟨hd, by rw [hhits]; exact List.mem_cons_self _ _,
          by rw [hmc, heq]⟩
      · exact ⟨x, by rw [hhits]; exact List.mem_cons_of_mem _ hx,
          by rw [hmc, heq]⟩

/-- Witness for C10: the theorem applied at a concrete sorted input. -/
theorem C10_witness :
    (merge_profanity_spans
        [⟨"a", 1, 2, 1, "", 0, 0⟩, ⟨"b", 3, 4, 1, "", 0, 0⟩] 500).flatMap
        ProfanitySpan.hits =
      [⟨"a", 1, 2, 1, "", 0, 0⟩, ⟨"b", 3, 4, 1, "", 0, 0⟩] :=
  (C10_merge_partition_and_max_confidence _ 500 (by
    refine List.pairwise_cons.mpr ⟨?_, ?_⟩
    · intro b hb
      rw [List.mem_singleton] at hb
      subst hb
      left
      norm_num [hitLe]
    · simp)).1

/- ----------------------------------------------------------------
   Claim C8: structural invariants of the produced spans
   ---------------------------------------------------------------- -/

theorem flushSpan_pairwise {R : ProfanitySpan → ProfanitySpan → Prop}
    {cs ce : ℚ} {hs : List ProfanityHit} :
    (flushSpan cs ce hs).Pairwise R := by
  cases hs <;> simp [flushSpan]

theorem mergeAux_span_invariants {g : ℚ} (hg : 0 ≤ g)
    (rest : List ProfanityHit) :
    ∀ (cs ce : ℚ) (hs : List ProfanityHit),
      rest.Pairwise (fun a b => a.start ≤ b.start) →
      (∀ x ∈ rest, cs ≤ x.start) →
      ((∃ h ∈ hs, h.start = cs) ∧ ∀ h ∈ hs, cs ≤ h.start) →
      ((∃ h ∈ hs, h.end_ = ce) ∧ ∀ h ∈ hs, h.end_ ≤ ce) →
      (∀ sp ∈ mergeAux g cs ce hs rest,
        ((∃ h ∈ sp.hits, h.start = sp.start) ∧
            ∀ h ∈ sp.hits, sp.start ≤ h.start) ∧
        ((∃ h ∈ sp.hits, h.end_ = sp.end_) ∧
            ∀ h ∈ sp.hits, h.end_ ≤ sp.end_)) ∧
      (mergeAux g cs ce hs rest).Pairwise (fun a b => a.end_ < b.start) ∧
      (mergeAux g cs ce hs rest).Pairwise (fun a b => a.start ≤ b.start) ∧
      (∀ sp ∈ mergeAux g cs ce hs rest, cs ≤ sp.start) := by
  induction rest with
  | nil =>
    intro cs ce hs _ _ hmin hmax
    refine ⟨?_, flushSpan_pairwise, flushSpan_pairwise, ?_⟩
    · intro sp hsp
      rw [mergeAux] at hsp
      obtain ⟨hd, tl, h1, h2, h3, h4, _⟩ := mem_flushSpan hsp
      rw [h1, h2, h3, ← h4]
      exact ⟨hmin, hmax⟩
    · intro sp hsp
      rw [mergeAux] at hsp
      obtain ⟨_, _, _, h2, _, _, _⟩ := mem_flushSpan hsp
      rw [h2]
  | cons h rest ih =>
    intro cs ce hs hpair hge hmin hmax
    have hHead : ∀ x ∈ rest, h.start ≤ x.start :=
      (List.pairwise_cons.mp hpair).1
    have hpair' : rest.Pairwise (fun a b => a.start ≤ b.start) :=
      (List.pairwise_cons.mp hpair).2
    have hgeH : cs ≤ h.start := hge h (List.mem_cons_self _ _)
    have hge' : ∀ x ∈ rest, cs ≤ x.start := fun x hx =>
      hge x (List.mem_cons_of_mem _ hx)
    simp only [mergeAux]
    by_cases hgap : h.start - ce ≤ g
    · rw [if_pos hgap]
      apply ih cs (max ce h.end_) (hs ++ [h]) hpair' hge'
      · obtain ⟨⟨w, hw, hws⟩, hall⟩ := hmin
        refine ⟨⟨w, List.mem_append_left _ hw, hws⟩, ?_⟩
        intro x hx
        rcases List.mem_append.mp hx with hx | hx
        · exact hall x hx
        · rw [List.mem_singleton] at hx
          subst hx
          exact hgeH
      · obtain ⟨⟨w, hw, hwe⟩, hall⟩ := hmax
        constructor
        · rcases max_choice ce h.end_ with hm | hm
          · exact ⟨w, List.mem_append_left _ hw, by rw [hm, hwe]⟩
          · exact ⟨h, List.mem_append_right _ (List.mem_singleton_self _),
              by rw [hm]⟩
        · intro x hx
          rcases List.mem_append.mp hx with hx | hx
          · exact le_trans (hall x hx) (le_max_left _ _)
          · rw [List.mem_singleton] at hx
            subst hx
            exact le_max_right _ _
    · rw [if_neg hgap]
      have hlt : ce < h.start := by
        by_contra hcon
        exact hgap (by linarith)
      have ihres := ih h.start h.end_ [h] hpair' hHead
        ⟨⟨h, List.mem_singleton_self _, rfl⟩, by
          intro x hx
          rw [List.mem_singleton] at hx
          subst hx
          exact le_rfl⟩
        ⟨⟨h, List.mem_singleton_self _, rfl⟩, by
          intro x hx
          rw [List.mem_singleton] at hx
          subst hx
          exact le_rfl⟩
      obtain ⟨ihSpan, ihPw1, ihPw2, ihGe⟩ := ihres
      refine ⟨?_, ?_, ?_, ?_⟩
      · intro sp hsp
        rcases List.mem_append.mp hsp with hsp | hsp
        · obtain ⟨hd, tl, h1, h2, h3, h4, _⟩ := mem_flushSpan hsp
          rw [h1, h2, h3, ← h4]
          exact ⟨hmin, hmax⟩
        · exact ihSpan sp hsp
      · rw [List.pairwise_append]
        refine ⟨flushSpan_pairwise, ihPw1, ?_⟩
        intro a ha b hb
        obtain ⟨_, _, _, _, h3, _, _⟩ := mem_flushSpan ha
        rw [h3]
        exact lt_of_lt_of_le hlt (ihGe b hb)
      · rw [List.pairwise_append]
        refine ⟨flushSpan_pairwise, ihPw2, ?_⟩
        intro a ha b hb
        obtain ⟨_, _, _, h2, _, _, _⟩ := mem_flushSpan ha
        rw [h2]
        exact le_trans hgeH (ihGe b hb)
      · intro sp hsp
        rcases List.mem_append.mp hsp with hsp | hsp
        · obtain ⟨_, _, _, h2, _, _, _⟩ := mem_flushSpan hsp
          rw [h2]
        · exact le_trans hgeH (ihGe sp hsp)

/-- Claim C8: for every hit sequence sorted by (start, end) and every
non-negative gap, each produced span starts at the minimum start of its
hits and ends at the maximum end of its hits, and the produced spans are
pairwise non-overlapping (each ends strictly before the next starts) and
sorted by start. -/
theorem C8_span_invariants (hits : List ProfanityHit) (g : ℤ)
    (hsorted : hits.Pairwise hitLe) (hg : 0 ≤ g) :
    (∀ sp ∈ merge_profanity_spans hits g,
      ((∃ h ∈ sp.hits, h.start = sp.start) ∧
          ∀ h ∈ sp.hits, sp.start ≤ h.start) ∧
      ((∃ h ∈ sp.hits, h.end_ = sp.end_) ∧
          ∀ h ∈ sp.hits, h.end_ ≤ sp.end_)) ∧
    (merge_profanity_spans hits g).Pairwise (fun a b => a.end_ < b.start) ∧
    (merge_profanity_spans hits g).Pairwise (fun a b => a.start ≤ b.start) := by
  cases hits with
  | nil => simp [merge_profanity_spans]
  | cons h rest =>
    have hq : (0 : ℚ) ≤ (g : ℚ) / 1000 := by
      have : (0 : ℚ) ≤ (g : ℚ) := by exact_mod_cast hg
      linarith
    have hstarts : (h :: rest).Pairwise (fun a b => a.start ≤ b.start) := by
      refine hsorted.imp ?_
      intro a b hab
      rcases hab with hab | ⟨hab, _⟩
      · exact hab.le
      · exact hab.le
    have hres := mergeAux_span_invariants hq rest h.start h.end_ [h]
      (List.pairwise_cons.mp hstarts).2 (List.pairwise_cons.mp hstarts).1
      ⟨⟨h, List.mem_singleton_self _, rfl⟩, by
        intro x hx
        rw [List.mem_singleton] at hx
        subst hx
        exact le_rfl⟩
      ⟨⟨h, List.mem_singleton_self _, rfl⟩, by
        intro x hx
        rw [List.mem_singleton] at hx
        subst hx
        exact le_rfl⟩
    rw [merge_profanity_spans]
    exact ⟨hres.1, hres.2.1, hres.2.2.1⟩

/-- Witness for C8: the theorem applied at a concrete sorted input with
the default 500 ms gap. -/
theorem C8_witness :
    (merge_profanity_spans
        [⟨"a", 1, 2, 1, "x", 0, 0⟩, ⟨"b", 5, 6, 1, "x", 0, 0⟩] 500).Pairwise
      (fun a b => a.end_ < b.start) :=
  (C8_span_invariants _ 500 (by decide) (by norm_num)).2.1

/- ----------------------------------------------------------------
   Claim C9: detection with an empty term list
   ---------------------------------------------------------------- -/

/-- Claim C9, as stated, is false: attempting detection with an empty term
list does not fail (there is no error path); on a concrete transcript that
does contain a profane word, the call returns normally with the empty hit
list (the code merely logs a warning). -/
theorem C9_counterexample :
    detect_profanity
      ⟨[{ id := 0
          start := 0
          end_ := 1
          text := "fuck"
          words := [⟨"fuck", 0, 1, 1⟩]
          avg_confidence := 1
          chunk_index := 0 }], "en"⟩ [] {} = [] := by
  simp [detect_profanity]

/-- Claim C9 (amended): profanity detection attempted with an empty term
list returns an empty hit list (and raises no error) for every transcript
and configuration. -/
theorem C9_empty_terms_returns_empty (transcription : TranscriptionResult)
    (config : AppConfig) :
    detect_profanity transcription [] config = [] := by
  simp [detect_profanity]

/- ----------------------------------------------------------------
   Claim C1: the "Clean" marker in the censor/mux command
   ---------------------------------------------------------------- -/

/-- Claim C1 fails on the code under `src/`: for the concrete one-span
mute-mode input with probed codec `ac3` at 384000 b/s (the repository's own
`test_build_ffmpeg_cmd_...` input), the command built by
`_build_ffmpeg_censor_and_mux_cmd` contains no `title=Clean` stream-title
marker and no `-metadata:s:a:2` flag, and it REPLACES the primary audio
stream (`-map -0:a:0`) instead of appending a marked clean stream. -/
theorem C1_no_clean_marker :
    "title=Clean" ∉
      build_ffmpeg_censor_and_mux_cmd "in.mp4" "out.mp4"
        [⟨1, 2, [], 1⟩] {} (some "ac3") (some 384000) ∧
    "-metadata:s:a:2" ∉
      build_ffmpeg_censor_and_mux_cmd "in.mp4" "out.mp4"
        [⟨1, 2, [], 1⟩] {} (some "ac3") (some 384000) ∧
    "-0:a:0" ∈
      build_ffmpeg_censor_and_mux_cmd "in.mp4" "out.mp4"
        [⟨1, 2, [], 1⟩] {} (some "ac3") (some 384000) := by
  have hcmd :
      build_ffmpeg_censor_and_mux_cmd "in.mp4" "out.mp4"
        [⟨1, 2, [], 1⟩] {} (some "ac3") (some 384000) =
      ["ffmpeg", "-y", "-i", "in.mp4", "-filter_complex"] ++
        ("[0:a:0]" ++
            (build_mute_filter [⟨1, 2, [], 1⟩]).getD "" ++ "[aout]") ::
          ["-map", "0:v:0", "-map", "[aout]", "-map", "0:a", "-map",
            "-0:a:0", "-c:v", "copy", "-c:a", "copy", "-c:a:0", "ac3",
            "-b:a:0", "384000", "out.mp4"] := rfl
  have hhead :
      ("[0:a:0]" ++
          (build_mute_filter [⟨1, 2, [], 1⟩]).getD "" ++
          "[aout]").data.head? = some '[' := rfl
  refine ⟨?_, ?_, ?_⟩
  · intro hmem
    rw [hcmd] at hmem
    rcases List.mem_append.mp hmem with h | h
    · exact absurd h (by decide)
    · rcases List.mem_cons.mp h with heq | h
      · have hth : ("title=Clean" : String).data.head? = some '[' := by
          rw [heq]
          exact hhead
        exact absurd hth (by decide)
      · exact absurd h (by decide)
  · intro hmem
    rw [hcmd] at hmem
    rcases List.mem_append.mp hmem with h | h
    · exact absurd h (by decide)
    · rcases List.mem_cons.mp h with heq | h
      · have hth : ("-metadata:s:a:2" : String).data.head? = some '[' := by
          rw [heq]
          exact hhead
        exact absurd hth (by decide)
      · exact absurd h (by decide)
  · rw [hcmd]
    refine List.mem_append_right _ (List.mem_cons_of_mem _ ?_)
    decide

/- ----------------------------------------------------------------
   Claim C6: segmentation into ceil-many windows with a 0.11 s floor
   ---------------------------------------------------------------- -/

theorem chunkLoop_eq_filterMap {fpc framerate n_frames : ℕ} (hfpc : 0 < fpc)
    (r : ℕ) :
    ∀ idx : ℕ, (∀ k, k < r → (idx + k) * fpc < n_frames) →
      chunkLoop fpc framerate n_frames r idx =
        (List.range' idx r).filterMap (fun i =>
          if ((min fpc (n_frames - i * fpc) : ℕ) : ℚ) / (framerate : ℚ) <
              0.11 then
            none
          else
            some
              { index := i
                start_time := ((i * fpc : ℕ) : ℚ) / (framerate : ℚ)
                duration :=
                  ((min fpc (n_frames - i * fpc) : ℕ) : ℚ) /
                    (framerate : ℚ) }) := by
  induction r with
  | zero => intro idx _; rfl
  | succ r ih =>
    intro idx hlt
    have hpos : idx * fpc < n_frames := by
      have := hlt 0 (Nat.succ_pos r)
      simpa using this
    have hne : ¬ min fpc (n_frames - idx * fpc) = 0 := by omega
    have ihr := ih (idx + 1) (fun k hk => by
      have hx := hlt (k + 1) (Nat.succ_lt_succ hk)
      have heq : idx + 1 + k = idx + (k + 1) := by omega
      rw [heq]
      exact hx)
    rw [List.range'_succ, List.filterMap_cons]
    simp only [chunkLoop]
    rw [if_neg hne]
    by_cases hdur :
        ((min fpc (n_frames - idx * fpc) : ℕ) : ℚ) / (framerate : ℚ) < 0.11
    · simp only [if_pos hdur, ihr]
    · simp only [if_neg hdur, ihr]

/-- Claim C6: the segmenter considers `ceil(totalFrames / framesPerChunk)`
windows; window `i` keeps index `i` and start time `i * framesPerChunk /
rate` (indices stay stable even across drops), and it is dropped exactly
when its duration `min(framesPerChunk, remaining) / rate` is below 0.11 s;
in particular 2.0 s of 16 kHz audio with a 1 s chunk length yields exactly
two chunks starting at 0.0 and 1.0. -/
theorem C6_chunking :
    (∀ framerate n_frames chunk_length_seconds : ℕ,
      0 < framerate → 0 < chunk_length_seconds →
      chunk_audio 1 framerate n_frames chunk_length_seconds =
        .ok ((List.range' 0
            ((n_frames + chunk_length_seconds * framerate - 1) /
              (chunk_length_seconds * framerate))).filterMap (fun i =>
          if ((min (chunk_length_seconds * framerate)
                  (n_frames - i * (chunk_length_seconds * framerate)) :
                ℕ) : ℚ) / (framerate : ℚ) < 0.11 then
            none
          else
            some
              { index := i
                start_time :=
                  ((i * (chunk_length_seconds * framerate) : ℕ) : ℚ) /
                    (framerate : ℚ)
                duration :=
                  ((min (chunk_length_seconds * framerate)
                      (n_frames - i * (chunk_length_seconds * framerate)) :
                    ℕ) : ℚ) / (framerate : ℚ) }))) ∧
    chunk_audio 1 16000 32000 1 = .ok [⟨0, 0, 1⟩, ⟨1, 1, 1⟩] := by
  constructor
  · intro framerate n_frames len hfr hlen
    have hfpc : 0 < len * framerate := Nat.mul_pos hlen hfr
    have hne : ¬ len * framerate = 0 := by omega
    rw [chunk_audio, if_neg (by norm_num : ¬(1 : ℕ) ≠ 1)]
    simp only [hne, if_false, ite_false]
    rw [chunkLoop_eq_filterMap hfpc]
    intro k hk
    have h1 : (k + 1) * (len * framerate) ≤ n_frames + len * framerate - 1 :=
      (Nat.le_div_iff_mul_le hfpc).mp (Nat.succ_le_of_lt hk)
    rw [Nat.succ_mul] at h1
    simp only [Nat.zero_add]
    omega
  · norm_num [chunk_audio, chunkLoop]
/-- Witness for C6: the universal part of the theorem applied at the
scenario input. -/
theorem C6_witness :
    chunk_audio 1 16000 32000 1 =
      .ok ((List.range' 0 ((32000 + 1 * 16000 - 1) / (1 * 16000))).filterMap
        (fun i =>
          if ((min (1 * 16000) (32000 - i * (1 * 16000)) : ℕ) : ℚ) /
              ((16000 : ℕ) : ℚ) < 0.11 then
            none
          else
            some
              { index := i
                start_time := ((i * (1 * 16000) : ℕ) : ℚ) / ((16000 : ℕ) : ℚ)
                duration :=
                  ((min (1 * 16000) (32000 - i * (1 * 16000)) : ℕ) : ℚ) /
                    ((16000 : ℕ) : ℚ) })) :=
  C6_chunking.1 16000 32000 1 (by norm_num) (by norm_num)

/- ----------------------------------------------------------------
   Claim C3: the confidence gate and its mute-mode exemption
   ---------------------------------------------------------------- -/

/-- Claim C3: a word-level candidate below `min_confidence` is kept in
`mute` mode and dropped in `bleep` mode (the identical input yields one hit
in mute mode and zero hits in bleep mode), while a below-threshold
segment-level fallback match is dropped in EVERY mode (no mute
exemption). -/
theorem C3_confidence_gate :
    (∀ (s : TranscriptSegment) (w : TranscriptWord)
        (terms : List ProfanityTerm) (cfgM cfgB : AppConfig) (lang : String),
      s.words = [w] →
      tokenNormalize w.word ≠ "" →
      tokenNormalize w.word ∈ terms.map ProfanityTerm.text →
      w.confidence < cfgM.min_confidence →
      cfgM.mode = "mute" →
      cfgB.mode = "bleep" →
      cfgB.min_confidence = cfgM.min_confidence →
      detect_profanity ⟨[s], lang⟩ terms cfgM =
        [{ word := tokenNormalize w.word
           start := w.start
           end_ := w.end_
           confidence := w.confidence
           context := strTrim s.text
           segment_id := s.id
           chunk_index := s.chunk_index }] ∧
      detect_profanity ⟨[s], lang⟩ terms cfgB = []) ∧
    (∀ (s : TranscriptSegment) (terms : List ProfanityTerm)
        (cfg : AppConfig) (lang : String),
      s.words = [] →
      s.avg_confidence < cfg.min_confidence →
      detect_profanity ⟨[s], lang⟩ terms cfg = []) := by
  constructor
  · intro s w terms cfgM cfgB lang hw hn hmem hconf hM hB hminEq
    have hterms : terms ≠ [] := by
      intro h
      subst h
      simp at hmem
    constructor
    · rw [detect_profanity, if_neg hterms]
      simp only [List.flatMap_cons, List.flatMap_nil, List.append_nil]
      rw [segmentFallbackHits, if_neg (by simp [hw])]
      rw [segmentWordHits, wordCandidates, hw]
      simp only [List.filterMap_cons, List.filterMap_nil]
      rw [if_neg hn]
      simp only [List.filterMap_cons, List.filterMap_nil]
      rw [if_pos hmem, if_neg (by simp [hM])]
      simp [List.insertionSort, List.orderedInsert]
    · have hconfB : w.confidence < cfgB.min_confidence := by
        rw [hminEq]
        exact hconf
      rw [detect_profanity, if_neg hterms]
      simp only [List.flatMap_cons, List.flatMap_nil, List.append_nil]
      rw [segmentFallbackHits, if_neg (by simp [hw])]
      rw [segmentWordHits, wordCandidates, hw]
      simp only [List.filterMap_cons, List.filterMap_nil]
      rw [if_neg hn]
      simp only [List.filterMap_cons, List.filterMap_nil]
      rw [if_pos hmem, if_pos ⟨hconfB, by simp [hB]⟩]
      rfl
  · intro s terms cfg lang hw hconf
    by_cases hterms : terms = []
    · simp [detect_profanity, hterms]
    · rw [detect_profanity, if_neg hterms]
      simp only [List.flatMap_cons, List.flatMap_nil, List.append_nil]
      rw [segmentWordHits, wordCandidates, hw]
      simp only [List.filterMap_nil, List.nil_append]
      rw [segmentFallbackHits, if_pos hw]
      have hz : ∀ t ∈ terms,
          (findBoundaryMatches t.text (strLower s.text)).filterMap
            (fun _ => if s.avg_confidence < cfg.min_confidence then none
              else some
                { word := t.text
                  start := s.start
                  end_ := s.end_
                  confidence := s.avg_confidence
                  context := strTrim s.text
                  segment_id := s.id
                  chunk_index := s.chunk_index }) =
            ([] : List ProfanityHit) := by
        intro t _
        apply List.filterMap_eq_nil_iff.mpr
        intro a _
        rw [if_pos hconf]
      rw [List.flatMap_eq_nil_iff.mpr hz]
      rfl

/-- Witness for C3: the theorem applied at a concrete below-threshold
word. -/
theorem C3_witness :
    detect_profanity
        ⟨[{ id := 0
            start := 0
            end_ := 1
            text := "fuck"
            words := [⟨"fuck", 0, 1, 0⟩]
            avg_confidence := 0
            chunk_index := 0 }], "en"⟩ [⟨"fuck"⟩]
        { mode := "mute", min_confidence := 1 } =
      [{ word := tokenNormalize "fuck"
         start := 0
         end_ := 1
         confidence := 0
         context := strTrim "fuck"
         segment_id := 0
         chunk_index := 0 }] ∧
    detect_profanity
        ⟨[{ id := 0
            start := 0
            end_ := 1
            text := "fuck"
            words := [⟨"fuck", 0, 1, 0⟩]
            avg_confidence := 0
            chunk_index := 0 }], "en"⟩ [⟨"fuck"⟩]
        { mode := "bleep", min_confidence := 1 } = [] :=
  C3_confidence_gate.1 _ ⟨"fuck", 0, 1, 0⟩ _ _ _ "en" rfl (by decide)
    (by decide) (by norm_num) rfl rfl rfl

/- ----------------------------------------------------------------
   Claim C7: token-boundary matching
   ---------------------------------------------------------------- -/

theorem mem_findBoundaryMatchesAux {t s : List Char} :
    ∀ {fuel i j : ℕ}, j ∈ findBoundaryMatchesAux t s i fuel →
      boundaryMatchAt t s j = true := by
  intro fuel
  induction fuel with
  | zero => intro i j h; simp [findBoundaryMatchesAux] at h
  | succ fuel ih =>
    intro i j h
    rw [findBoundaryMatchesAux] at h
    by_cases hlen : i > s.length
    · rw [if_pos hlen] at h
      simp at h
    · rw [if_neg hlen] at h
      by_cases hm : boundaryMatchAt t s i
      · rw [if_pos hm] at h
        rcases List.mem_cons.mp h with rfl | h
        · exact hm
        · exact ih h
      · rw [if_neg hm] at h
        exact ih h

theorem mem_findBoundaryMatches {t s : String} {i : ℕ}
    (h : i ∈ findBoundaryMatches t s) :
    charsAtHead t.toList (s.toList.drop i) = true ∧
    boundaryAt s.toList i = true ∧
    boundaryAt s.toList (i + t.toList.length) = true := by
  have hb := mem_findBoundaryMatchesAux h
  rw [boundaryMatchAt, Bool.and_eq_true, Bool.and_eq_true] at hb
  exact ⟨hb.1.1, hb.1.2, hb.2⟩

/-- Provenance of a detected hit: its word is the canonical text of one of
the terms, and it came either from a word whose normal form equals that
text exactly (word-timed path) or from a segment with no word timings
(fallback path). -/
theorem detect_mem_characterization
    {t : TranscriptionResult} {terms : List ProfanityTerm}
    {cfg : AppConfig} {h : ProfanityHit}
    (hmem : h ∈ detect_profanity t terms cfg) :
    h.word ∈ terms.map ProfanityTerm.text ∧
    ∃ s ∈ t.segments,
      (∃ w ∈ s.words, tokenNormalize w.word = h.word) ∨ s.words = [] := by
  rw [detect_profanity] at hmem
  by_cases hterms : terms = []
  · rw [if_pos hterms] at hmem
    simp at hmem
  · rw [if_neg hterms] at hmem
    rw [(List.perm_insertionSort hitLe _).mem_iff] at hmem
    obtain ⟨s, hs, hsh⟩ := List.mem_flatMap.mp hmem
    rcases List.mem_append.mp hsh with hsh | hsh
    · rw [segmentWordHits] at hsh
      obtain ⟨p, hp, hph⟩ := List.mem_filterMap.mp hsh
      obtain ⟨w, hw, hwp⟩ := List.mem_filterMap.mp hp
      by_cases hn : tokenNormalize w.word = ""
      · rw [if_pos hn] at hwp
        exact absurd hwp (by simp)
      · rw [if_neg hn] at hwp
        by_cases htm : p.2 ∈ terms.map ProfanityTerm.text
        · rw [if_pos htm] at hph
          by_cases hgate :
              p.1.confidence < cfg.min_confidence ∧ cfg.mode ≠ "mute"
          · rw [if_pos hgate] at hph
            exact absurd hph (by simp)
          · rw [if_neg hgate] at hph
            have hword : h.word = p.2 := by
              have := Option.some.inj hph
              rw [← this]
            have hp2 : p.2 = tokenNormalize w.word := by
              have := Option.some.inj hwp
              rw [← this]
            constructor
            · rw [hword]
              exact htm
            · exact ⟨s, hs, Or.inl ⟨w, hw, by rw [hp2] at hword; rw [hword]⟩⟩
        · rw [if_neg htm] at hph
          exact absurd hph (by simp)
    · rw [segmentFallbackHits] at hsh
      by_cases hw : s.words = []
      · rw [if_pos hw] at hsh
        obtain ⟨term, hterm, hth⟩ := List.mem_flatMap.mp hsh
        obtain ⟨j, _, hjh⟩ := List.mem_filterMap.mp hth
        by_cases hgate : s.avg_confidence < cfg.min_confidence
        · rw [if_pos hgate] at hjh
          exact absurd hjh (by simp)
        · rw [if_neg hgate] at hjh
          have hword : h.word = term.text := by
            have := Option.some.inj hjh
            rw [← this]
          constructor
          · rw [hword]
            exact List.mem_map.mpr ⟨term, hterm, rfl⟩
          · exact ⟨s, hs, Or.inr hw⟩
      · rw [if_neg hw] at hsh
        simp at hsh

/-- Claim C7: matching occurs only at token boundaries.  (1) The scenario:
the word-timed segment "classy ass move" scanned with the single term
"ass" yields exactly one hit, for the word "ass".  (2) On the word-timed
path a hit for a term requires some transcript token whose normal form
equals the term exactly, so a term occurring only as a strict substring of
longer tokens produces no hit.  (3) Every fallback regex match sits at a
`\b` boundary on both sides of the matched occurrence. -/
theorem C7_word_boundary :
    (detect_profanity
        ⟨[{ id := 0
            start := 0
            end_ := 3
            text := "classy ass move"
            words := [⟨"classy", 0, 1, 1⟩, ⟨"ass", 1, 2, 1⟩,
              ⟨"move", 2, 3, 1⟩]
            avg_confidence := 1
            chunk_index := 0 }], "en"⟩ [⟨"ass"⟩] { min_confidence := 0 } =
      [⟨"ass", 1, 2, 1, "classy ass move", 0, 0⟩]) ∧
    (∀ (t : TranscriptionResult) (terms : List ProfanityTerm)
        (cfg : AppConfig),
      (∀ s ∈ t.segments, s.words ≠ []) →
      (∀ term ∈ terms, ∀ s ∈ t.segments, ∀ w ∈ s.words,
        tokenNormalize w.word ≠ term.text) →
      detect_profanity t terms cfg = []) ∧
    (∀ (t s : String) (i : ℕ), i ∈ findBoundaryMatches t s →
      charsAtHead t.toList (s.toList.drop i) = true ∧
      boundaryAt s.toList i = true ∧
      boundaryAt s.toList (i + t.toList.length) = true) := by
  refine ⟨by decide, ?_, fun t s i h => mem_findBoundaryMatches h⟩
  intro t terms cfg hwords hnone
  apply List.eq_nil_iff_forall_not_mem.mpr
  intro h hmem
  obtain ⟨hword, s, hs, hcase⟩ := detect_mem_characterization hmem
  obtain ⟨term, hterm, hteq⟩ := List.mem_map.mp hword
  rcases hcase with ⟨w, hw, hweq⟩ | hnil
  · exact hnone term hterm s hs w hw (by rw [hweq, hteq])
  · exact hwords s hs hnil

/-- Witness for C7: the no-exact-token conjunct applied to a transcript
where "ass" occurs only inside the longer token "class". -/
theorem C7_witness :
    detect_profanity
        ⟨[{ id := 0
            start := 0
            end_ := 1
            text := "class move"
            words := [⟨"class", 0, 1, 1⟩, ⟨"move", 0, 1, 1⟩]
            avg_confidence := 1
            chunk_index := 0 }], "en"⟩ [⟨"ass"⟩]
        { min_confidence := 0 } = [] :=
  C7_word_boundary.2.1 _ [⟨"ass"⟩] { min_confidence := 0 } (by decide)
    (by decide)

/- ----------------------------------------------------------------
   Claim C5: retry, fallback and failure isolation
   ---------------------------------------------------------------- -/

/-- Claim C5, for the default configuration (local backend, model "base",
`maxRetries = 3`, delay 2 s, no explicit fallback).  (1) When every
backend call raises, each of the two models (fallback defaulting to the
primary) is attempted exactly 3 times with a 2 s sleep between attempts,
and the chunk fails with an exhaustion error carrying the chunk index and
the LAST underlying error (the 6th).  (2) An "unknown language" result
abandons the remaining retries of the primary model after attempt 1 and
falls through to the fallback under a fresh retry budget.  (3) A
successful first attempt makes exactly one call.  (4)/(5) The failure is
isolated: the aggregate contains exactly the segments of the chunks whose
transcription succeeded. -/
theorem C5_retry_fallback_isolation :
    (∀ (e : ℕ → String) (i : ℕ),
      transcribe_chunk (fun n => .error (e n)) i {} none none 3 2 =
        ([.attempt "base" 1, .sleep 2, .attempt "base" 2, .sleep 2,
          .attempt "base" 3, .attempt "base" 1, .sleep 2, .attempt "base" 2,
          .sleep 2, .attempt "base" 3], .error ⟨i, some (e 5)⟩)) ∧
    (∀ (segs : List TranscriptSegment) (i : ℕ),
      transcribe_chunk
        (fun n => if n = 0 then .ok ⟨none, []⟩ else .ok ⟨some "en", segs⟩)
        i {} none none 3 2 =
        ([.attempt "base" 1, .attempt "base" 1], .ok ⟨i, "en", segs⟩)) ∧
    (∀ (segs : List TranscriptSegment) (i : ℕ),
      transcribe_chunk (fun _ => .ok ⟨some "en", segs⟩) i {} none none 3 2 =
        ([.attempt "base" 1], .ok ⟨i, "en", segs⟩)) ∧
    (∀ (chunkIdxs : List ℕ) (oracleOf : ℕ → BackendOracle)
        (config : AppConfig),
      ∀ s ∈ (transcribe_audio_chunks chunkIdxs oracleOf config).segments,
        ∃ i ∈ chunkIdxs, ∃ res,
          (transcribe_chunk (oracleOf i) i config).2 = .ok res ∧
            s ∈ res.segments) ∧
    (∀ (chunkIdxs : List ℕ) (oracleOf : ℕ → BackendOracle)
        (config : AppConfig),
      ∀ i ∈ chunkIdxs, ∀ res,
        (transcribe_chunk (oracleOf i) i config).2 = .ok res →
        ∀ s ∈ res.segments,
          s ∈ (transcribe_audio_chunks chunkIdxs oracleOf config).segments) := by
  refine ⟨fun e i => rfl, fun segs i => rfl, fun segs i => rfl, ?_, ?_⟩
  · intro chunkIdxs oracleOf config s hs
    simp only [transcribe_audio_chunks] at hs
    rw [(List.perm_insertionSort segLe _).mem_iff] at hs
    obtain ⟨res, hres, hsres⟩ := List.mem_flatMap.mp hs
    obtain ⟨r, hr, hrres⟩ := List.mem_filterMap.mp hres
    obtain ⟨i, hi, hir⟩ := List.mem_map.mp hr
    refine ⟨i, hi, res, ?_, hsres⟩
    rw [hir]
    cases r with
    | ok a =>
      simp at hrres
      rw [hrres]
    | error x => simp at hrres
  · intro chunkIdxs oracleOf config i hi res heq s hs
    simp only [transcribe_audio_chunks]
    rw [(List.perm_insertionSort segLe _).mem_iff]
    apply List.mem_flatMap.mpr
    refine ⟨res, ?_, hs⟩
    apply List.mem_filterMap.mpr
    refine ⟨(transcribe_chunk (oracleOf i) i config).2,
      List.mem_map.mpr ⟨i, hi, rfl⟩, ?_⟩
    rw [heq]

/-- Witness for C5: the isolation conjunct applied at a concrete
single-chunk run whose transcription succeeds. -/
theorem C5_witness :
    (⟨0, 0, 1, "hello", [], 1, 0⟩ : TranscriptSegment) ∈
      (transcribe_audio_chunks [0]
        (fun _ _ => .ok ⟨some "en", [⟨0, 0, 1, "hello", [], 1, 0⟩]⟩)
        {}).segments :=
  C5_retry_fallback_isolation.2.2.2.2 [0]
    (fun _ _ => .ok ⟨some "en", [⟨0, 0, 1, "hello", [], 1, 0⟩]⟩) {} 0
    (List.mem_singleton_self 0) ⟨0, "en", [⟨0, 0, 1, "hello", [], 1, 0⟩]⟩
    rfl ⟨0, 0, 1, "hello", [], 1, 0⟩ (List.mem_singleton_self _)

/- ----------------------------------------------------------------
   Claim C4: mutual exclusion in the local Whisper backend
   ---------------------------------------------------------------- -/

/-- Lock-discipline invariant of the backend: a thread inside
`mdl.transcribe` owns the per-model lock of its normalized model name, and
a thread inside either critical section of `_local_whisper_models_lock`
(model loading, lock-dict initialization) owns the global cache lock. -/
def LWInv (s : LWState) : Prop :=
  (∀ t m, s.threads t = .inference m →
    s.transLockOwner (normModelName m) = some t) ∧
  (∀ t m, s.threads t = .loading m → s.cacheLockOwner = some t) ∧
  (∀ t m, s.threads t = .gettingLock m → s.cacheLockOwner = some t)

theorem LWInv_init : LWInv LWInit := by
  refine ⟨?_, ?_, ?_⟩ <;> intro t m h <;> simp [LWInit] at h

theorem LWInv_step {s s' : LWState} (hinv : LWInv s) (hstep : LWStep s s') :
    LWInv s' := by
  obtain ⟨h1, h2, h3⟩ := hinv
  cases hstep with
  | acquireCacheForLoad t m hpc hlock =>
    refine ⟨?_, ?_, ?_⟩ <;> intro t' m' h' <;>
      simp only [setThread] at h' <;> by_cases ht : t' = t
    · rw [if_pos ht] at h'
      exact absurd h' (by simp)
    · rw [if_neg ht] at h'
      exact h1 t' m' h'
    · rw [ht]
    · rw [if_neg ht] at h'
      exact absurd (h2 t' m' h') (by rw [hlock]; simp)
    · rw [if_pos ht] at h'
      exact absurd h' (by simp)
    · rw [if_neg ht] at h'
      exact absurd (h3 t' m' h') (by rw [hlock]; simp)
  | finishLoad t m hpc =>
    refine ⟨?_, ?_, ?_⟩ <;> intro t' m' h' <;>
      simp only [setThread] at h' <;> by_cases ht : t' = t
    · rw [if_pos ht] at h'
      exact absurd h' (by simp)
    · rw [if_neg ht] at h'
      exact h1 t' m' h'
    · rw [if_pos ht] at h'
      exact absurd h' (by simp)
    · rw [if_neg ht] at h'
      exact absurd (Option.some.inj ((h2 t' m' h').symm.trans (h2 t m hpc)))
        ht
    · rw [if_pos ht] at h'
      exact absurd h' (by simp)
    · rw [if_neg ht] at h'
      exact absurd (Option.some.inj ((h3 t' m' h').symm.trans (h2 t m hpc)))
        ht
  | acquireCacheForLockDict t m hpc hlock =>
    refine ⟨?_, ?_, ?_⟩ <;> intro t' m' h' <;>
      simp only [setThread] at h' <;> by_cases ht : t' = t
    · rw [if_pos ht] at h'
      exact absurd h' (by simp)
    · rw [if_neg ht] at h'
      exact h1 t' m' h'
    · rw [if_pos ht] at h'
      exact absurd h' (by simp)
    · rw [if_neg ht] at h'
      exact absurd (h2 t' m' h') (by rw [hlock]; simp)
    · rw [ht]
    · rw [if_neg ht] at h'
      exact absurd (h3 t' m' h') (by rw [hlock]; simp)
  | finishGetLock t m hpc =>
    refine ⟨?_, ?_, ?_⟩ <;> intro t' m' h' <;>
      simp only [setThread] at h' <;> by_cases ht : t' = t
    · rw [if_pos ht] at h'
      exact absurd h' (by simp)
    · rw [if_neg ht] at h'
      exact h1 t' m' h'
    · rw [if_pos ht] at h'
      exact absurd h' (by simp)
    · rw [if_neg ht] at h'
      exact absurd (Option.some.inj ((h2 t' m' h').symm.trans (h3 t m hpc)))
        ht
    · rw [if_pos ht] at h'
      exact absurd h' (by simp)
    · rw [if_neg ht] at h'
      exact absurd (Option.some.inj ((h3 t' m' h').symm.trans (h3 t m hpc)))
        ht
  | acquireTranscribeLock t m hpc hlock =>
    refine ⟨?_, ?_, ?_⟩ <;> intro t' m' h' <;>
      simp only [setThread] at h' <;> by_cases ht : t' = t
    · rw [if_pos ht] at h'
      have hm : m' = m := by
        cases h'
        rfl
      subst hm
      rw [ht]
      simp
    · rw [if_neg ht] at h'
      have hold := h1 t' m' h'
      by_cases hn : normModelName m' = normModelName m
      · rw [hn] at hold
        rw [hold] at hlock
        exact absurd hlock (by simp)
      · simpa [hn] using hold
    · rw [if_pos ht] at h'
      exact absurd h' (by simp)
    · rw [if_neg ht] at h'
      exact h2 t' m' h'
    · rw [if_pos ht] at h'
      exact absurd h' (by simp)
    · rw [if_neg ht] at h'
      exact h3 t' m' h'
  | releaseTranscribeLock t m hpc =>
    refine ⟨?_, ?_, ?_⟩ <;> intro t' m' h' <;>
      simp only [setThread] at h' <;> by_cases ht : t' = t
    · rw [if_pos ht] at h'
      exact absurd h' (by simp)
    · rw [if_neg ht] at h'
      have hold := h1 t' m' h'
      by_cases hn : normModelName m' = normModelName m
      · rw [hn] at hold
        exact absurd (Option.some.inj (hold.symm.trans (h1 t m hpc))) ht
      · simpa [hn] using hold
    · rw [if_pos ht] at h'
      exact absurd h' (by simp)
    · rw [if_neg ht] at h'
      exact h2 t' m' h'
    · rw [if_pos ht] at h'
      exact absurd h' (by simp)
    · rw [if_neg ht] at h'
      exact h3 t' m' h'

theorem LWReachable_inv {s : LWState} (h : LWReachable s) : LWInv s := by
  induction h with
  | init => exact LWInv_init
  | step _ hstep ih => exact LWInv_step ih hstep

/-- Claim C4: in every reachable state of the local-whisper backend, at
most one thread is inside an inference call per normalized model name
(threads inferring with names that normalize equally are the same thread),
and at most one thread is inside the lock-protected model-loading critical
section at all (so the same model is never loaded twice concurrently). -/
theorem C4_per_model_mutual_exclusion (s : LWState) (hreach : LWReachable s) :
    (∀ t1 t2 m1 m2, s.threads t1 = .inference m1 →
      s.threads t2 = .inference m2 →
      normModelName m1 = normModelName m2 → t1 = t2) ∧
    (∀ t1 t2 m1 m2, s.threads t1 = .loading m1 →
      s.threads t2 = .loading m2 → t1 = t2) := by
  have hinv := LWReachable_inv hreach
  constructor
  · intro t1 t2 m1 m2 ht1 ht2 hnorm
    have o1 := hinv.1 t1 m1 ht1
    have o2 := hinv.1 t2 m2 ht2
    rw [hnorm] at o1
    exact Option.some.inj (o1.symm.trans o2)
  · intro t1 t2 m1 m2 ht1 ht2
    exact Option.some.inj
      ((hinv.2.1 t1 m1 ht1).symm.trans (hinv.2.1 t2 m2 ht2))

/-- Witness for C4: the theorem applied at a concrete reachable state in
which thread 0 is inside an inference call with model "base". -/
theorem C4_witness : (0 : ℕ) = 0 :=
  (C4_per_model_mutual_exclusion _
    (LWReachable.step
      (LWReachable.step
        (LWReachable.step
          (LWReachable.step
            (LWReachable.step LWReachable.init
              (LWStep.acquireCacheForLoad LWInit 0 "base" rfl rfl))
            (LWStep.finishLoad _ 0 "base" rfl))
          (LWStep.acquireCacheForLockDict _ 0 "base" rfl rfl))
        (LWStep.finishGetLock _ 0 "base" rfl))
      (LWStep.acquireTranscribeLock _ 0 "base" rfl rfl))).1
    0 0 "base" "base" rfl rfl rfl

end DialogSafe
